import Mathlib

/-!
# Verification of `src/math/trig_functions.rs`

A shallow embedding of the sine/cosine MacLaurin-series routine.  The Rust
code computes over IEEE `f64`; the embedding idealises every arithmetic
operation as exact rational arithmetic, while keeping every *structural*
aspect of the code faithful:

* the `f64` constant `std::f64::consts::PI` is the exact dyadic rational
  `884279719003555 / 2^48` (the IEEE-754 double nearest to π);
* non-finite `f64` inputs (`+∞`, `-∞`, `NaN`) are modelled by the inductive
  type `F64`;
* the two `while` loops (range reduction and series summation) are modelled
  by fuel-indexed recursion returning `Option`; `none` models divergence.
  Theorems below show the supplied fuel is sufficient on all inputs the
  claims quantify over, so the `Option` layer never hides behaviour;
* the series loop additionally returns the number of loop-body executions,
  a ghost counter that does not influence the computed value;
* `template` returns the result paired with a `Bool` recording whether the
  diagnostic message (`println!`) was emitted.
-/

/-- The `f64` values relevant to the program: finite doubles (idealised as
rationals) and the three non-finite cases tested by `is_finite`/`is_nan`. -/
inductive F64 where
  | finite (q : ℚ)
  | posInf
  | negInf
  | nan
deriving DecidableEq, Repr

/-- The constant `std::f64::consts::PI`, exactly: the IEEE-754 double closest to π. -/
def PI_F64 : ℚ := 884279719003555 / 2 ^ 48

/-- The constant `PERIOD: f64 = 2.0 * PI`. -/
def PERIOD : ℚ := 2 * PI_F64

/-- Embeds `fn factorial(n: i128) -> i128 { (1..=n).product() }`.  The argument
is always a nonnegative machine integer; this definition computes the product
exactly, and the companion `factorialChecked` below models the
overflow-checked i128 computation.  The C2, C4, C6 and C8 theorems delimit
exactly where the two agree (all arguments the loops reach at tolerances at
least `1.4e-10`) and where the i128 computation overflows (argument 34,
reachable at smaller tolerances). -/
def factorial (n : ℕ) : ℕ :=
  (List.range' 1 n).foldl (· * ·) 1

/-- The rounding primitive used by `round_up_to_decimal`: `f64::round`, which
rounds half away from zero. -/
def ratRound (x : ℚ) : ℤ :=
  if 0 ≤ x then ⌊x + 1 / 2⌋ else ⌈x - 1 / 2⌉

/-- Embeds `fn round_up_to_decimal(x: f64, decimal: i32) -> f64`:
`(x * multiplier).round() / multiplier` with `multiplier = 10^decimal`. -/
def round_up_to_decimal (x : ℚ) (decimal : ℕ) : ℚ :=
  ((ratRound (x * 10 ^ decimal) : ℚ)) / 10 ^ decimal

/-- Embeds `while value >= PERIOD { value -= PERIOD; }`, with fuel.  Here
`none` models a loop that did not finish within the given fuel. -/
def stripDown : ℕ → ℚ → Option ℚ
  | 0, _ => none
  | fuel + 1, value =>
    if value ≥ PERIOD then stripDown fuel (value - PERIOD) else some value

/-- Embeds `while value <= -PERIOD { value += PERIOD; }`, with fuel. -/
def stripUp : ℕ → ℚ → Option ℚ
  | 0, _ => none
  | fuel + 1, value =>
    if value ≤ -PERIOD then stripUp fuel (value + PERIOD) else some value

/-- Fuel that (provably) suffices for both range-reduction loops. -/
def reduceFuel (value : ℚ) : ℕ :=
  (⌈|value| / PERIOD⌉).toNat + 1

/-- The composed range reduction performed by `template` on a finite angle. -/
def reduceAngle (value : ℚ) : Option ℚ :=
  (stripDown (reduceFuel value) value).bind (stripUp (reduceFuel value))

/-- The series-summation `while` loop of `template`, with fuel:

```
while (prev_rez - rez).abs() > tol {
    prev_rez = rez;
    rez += (-1f64).powi(step) * value.powi(2 * step + kind)
        / factorial((2 * step + kind) as i128) as f64;
    step += 1;
}
```

Returns the final `rez` together with the number of loop-body executions
(a ghost counter; the final `step`). -/
def seriesLoop (value tol : ℚ) (kind : ℕ) :
    ℕ → ℚ → ℚ → ℕ → Option (ℚ × ℕ)
  | 0, _, _, _ => none
  | fuel + 1, rez, prev_rez, step =>
    if |prev_rez - rez| > tol then
      seriesLoop value tol kind fuel
        (rez + (-1) ^ step * value ^ (2 * step + kind) /
          (factorial (2 * step + kind) : ℚ))
        rez (step + 1)
    else
      some (rez, step)

/-- Fuel that (provably) suffices for the series loop whenever `tol > 0`
and the angle has been range-reduced. -/
def seriesFuel (tol : ℚ) : ℕ :=
  (⌈(64 : ℚ) / tol⌉).toNat + 9

/-- Embeds `fn template<T: Into<f64>>(x: T, tol: f64, kind: i32) -> f64`.

The result is paired with a `Bool` that records whether the diagnostic
`println!("This function does not accept invalid arguments.")` ran.
`none` models non-termination of the `while` loops (shown impossible for
`tol > 0`). -/
def template (x : F64) (tol : ℚ) (kind : ℕ) : Option (F64 × Bool) :=
  match x with
  | F64.finite q =>
    -- `value.is_finite()` holds, `value.is_nan()` fails: fall through to
    -- range reduction and series summation.
    (reduceAngle q).bind fun value =>
      (seriesLoop value tol kind (seriesFuel tol) 0 1 0).map fun p =>
        (F64.finite (round_up_to_decimal p.1 6), false)
  | _ =>
    -- `!value.is_finite() || value.is_nan()`: print the warning, return NAN.
    some (F64.nan, true)

/-- Embeds `pub fn sine(x, tol) -> f64 { template(x, tol, 1) }`. -/
def sine (x : F64) (tol : ℚ) : Option (F64 × Bool) :=
  template x tol 1

/-- Embeds `pub fn cosine(x, tol) -> f64 { template(x, tol, 0) }`. -/
def cosine (x : F64) (tol : ℚ) : Option (F64 × Bool) :=
  template x tol 0

/-- Embeds `val * PI / 180f64` on an arbitrary `f64`: multiplication and
division of a non-finite value by a finite positive constant preserve `±∞`
and `NaN`. -/
def degToRad : F64 → F64
  | F64.finite q => F64.finite (q * PI_F64 / 180)
  | F64.posInf => F64.posInf
  | F64.negInf => F64.negInf
  | F64.nan => F64.nan

/-- Embeds `pub fn sine_no_radian_arg(x, tol) -> f64`. -/
def sine_no_radian_arg (x : F64) (tol : ℚ) : Option (F64 × Bool) :=
  sine (degToRad x) tol

/-- Embeds `pub fn cosine_no_radian_arg(x, tol) -> f64`. -/
def cosine_no_radian_arg (x : F64) (tol : ℚ) : Option (F64 × Bool) :=
  cosine (degToRad x) tol

/-- The finite rational value of a result, if any. -/
def resultValue : Option (F64 × Bool) → Option ℚ
  | some (F64.finite q, _) => some q
  | _ => none

/-- Comparison at 5 decimal places, as the `{:.5}`
formatting in the test suite does: round the (already 6-decimal-rounded) result to
5 decimals. -/
def disp5 (r : Option (F64 × Bool)) : Option ℚ :=
  (resultValue r).map fun q => ((ratRound (q * 10 ^ 5) : ℚ)) / 10 ^ 5

/-- Ghost observation: the number of series-loop iterations performed by
`sine` on a finite angle. -/
def sineSteps (q tol : ℚ) : Option ℕ :=
  (reduceAngle q).bind fun value =>
    (seriesLoop value tol 1 (seriesFuel tol) 0 1 0).map Prod.snd

/-- Ghost observation: the number of series-loop iterations performed by
`cosine` on a finite angle. -/
def cosineSteps (q tol : ℚ) : Option ℕ :=
  (reduceAngle q).bind fun value =>
    (seriesLoop value tol 0 (seriesFuel tol) 0 1 0).map Prod.snd

/-! ### Ghost quantities describing the series loop -/

/-- The exact term added to `rez` at loop iteration `s`. -/
def termQ (v : ℚ) (kind s : ℕ) : ℚ :=
  (-1) ^ s * v ^ (2 * s + kind) / (factorial (2 * s + kind) : ℚ)

/-- Value of `rez` after `n` iterations of the series loop: the partial sum
of the MacLaurin series. -/
def psum (v : ℚ) (kind : ℕ) : ℕ → ℚ
  | 0 => 0
  | n + 1 => psum v kind n + termQ v kind n

/-- Value of `prev_rez` after `n` iterations of the series loop. -/
def prevAt (v : ℚ) (kind : ℕ) : ℕ → ℚ
  | 0 => 1
  | n + 1 => psum v kind n

/-- The quantity compared against the tolerance by the loop guard after `n`
iterations. -/
def chk (v : ℚ) (kind n : ℕ) : ℚ :=
  |prevAt v kind n - psum v kind n|

/-- Absolute value of the series term at iteration `s`. -/
def tabs (v : ℚ) (kind s : ℕ) : ℚ :=
  |v| ^ (2 * s + kind) / (factorial (2 * s + kind) : ℚ)

/-- The factorial computation as an overflow-checked `i128` build performs
it: the same product `(1..=n).product()`, with every multiplication checked
against `i128::MAX = 2^127 - 1`; `none` models the arithmetic-overflow
panic.  (All partial products are positive, so only the upper bound can be
exceeded.)  The theorems below delimit exactly where this agrees with the
exact `factorial`: every argument the loops reach at tolerances at least
`1.4e-10` is safe, while smaller tolerances can reach `factorial(34)`,
which overflows. -/
def factorialChecked (n : ℕ) : Option ℤ :=
  (List.range' 1 n).foldl
    (fun acc i => acc.bind fun a =>
      if a * ((i : ℕ) : ℤ) ≤ 2 ^ 127 - 1 then some (a * ((i : ℕ) : ℤ)) else none)
    (some 1)

/-! ### Elementary facts -/

theorem PI_F64_pos : 0 < PI_F64 := by norm_num [PI_F64]

theorem PERIOD_pos : 0 < PERIOD := by norm_num [PERIOD, PI_F64]

theorem PERIOD_le_seven : PERIOD ≤ 7 := by norm_num [PERIOD, PI_F64]

theorem factorial_succ (n : ℕ) : factorial (n + 1) = factorial n * (n + 1) := by
  unfold factorial
  rw [List.range'_1_concat, List.foldl_append]
  simp [Nat.add_comm]

theorem factorial_eq (n : ℕ) : factorial n = Nat.factorial n := by
  induction n with
  | zero => rfl
  | succ n ih => rw [factorial_succ, ih, Nat.factorial_succ, Nat.mul_comm]

theorem factorial_pos (n : ℕ) : 0 < factorial n := by
  rw [factorial_eq]; exact Nat.factorial_pos n

theorem factorial_cast_pos (n : ℕ) : 0 < (factorial n : ℚ) := by
  exact_mod_cast factorial_pos n

theorem abs_termQ (v : ℚ) (kind s : ℕ) : |termQ v kind s| = tabs v kind s := by
  unfold termQ tabs
  rw [abs_div, abs_mul, abs_pow, abs_pow, abs_neg, abs_one, one_pow, one_mul,
    abs_of_pos (factorial_cast_pos _)]

theorem tabs_nonneg (v : ℚ) (kind s : ℕ) : 0 ≤ tabs v kind s := by
  rw [← abs_termQ]; exact abs_nonneg _

theorem chk_zero (v : ℚ) (kind : ℕ) : chk v kind 0 = 1 := by
  simp [chk, prevAt, psum]

theorem chk_succ (v : ℚ) (kind n : ℕ) : chk v kind (n + 1) = tabs v kind n := by
  show |psum v kind n - (psum v kind n + termQ v kind n)| = _
  rw [← abs_termQ]
  ring_nf
  rw [abs_neg]

/-! ### Characterisation of the series loop -/

/-- Running the series loop from the state reached after `m` iterations
yields the partial sum at the first index `n ≥ m` whose guard quantity is
within the tolerance; every guard strictly between was above the
tolerance. -/
theorem seriesLoop_spec (v tol : ℚ) (kind : ℕ) :
    ∀ (fuel m : ℕ) (r : ℚ) (n : ℕ),
      seriesLoop v tol kind fuel (psum v kind m) (prevAt v kind m) m = some (r, n) →
      m ≤ n ∧ r = psum v kind n ∧ chk v kind n ≤ tol ∧
        ∀ j, m ≤ j → j < n → tol < chk v kind j := by
  intro fuel
  induction fuel with
  | zero => intro m r n h; simp [seriesLoop] at h
  | succ fuel ih =>
    intro m r n h
    rw [seriesLoop] at h
    by_cases hg : |prevAt v kind m - psum v kind m| > tol
    · rw [if_pos hg] at h
      have h' : seriesLoop v tol kind fuel
          (psum v kind (m + 1)) (prevAt v kind (m + 1)) (m + 1) = some (r, n) := h
      obtain ⟨h1, h2, h3, h4⟩ := ih (m + 1) r n h'
      refine ⟨by omega, h2, h3, ?_⟩
      intro j hj1 hj2
      rcases Nat.eq_or_lt_of_le hj1 with rfl | hlt
      · exact hg
      · exact h4 j hlt hj2
    · rw [if_neg hg] at h
      obtain ⟨hr, hn⟩ := Prod.mk.injEq .. ▸ Option.some.inj h
      subst hr; subst hn
      exact ⟨le_rfl, rfl, not_lt.mp hg, fun j hj1 hj2 => absurd (lt_of_le_of_lt hj1 hj2) (lt_irrefl _)⟩

/-- Monotonicity of the series loop in its fuel. -/
theorem seriesLoop_fuel_mono (v tol : ℚ) (kind : ℕ) :
    ∀ (f1 : ℕ) (rez prev : ℚ) (m f2 : ℕ) (out : ℚ × ℕ), f1 ≤ f2 →
      seriesLoop v tol kind f1 rez prev m = some out →
      seriesLoop v tol kind f2 rez prev m = some out := by
  intro f1
  induction f1 with
  | zero => intro rez prev m f2 out _ h; simp [seriesLoop] at h
  | succ f1 ih =>
    intro rez prev m f2 out hle h
    obtain ⟨f2', rfl⟩ : ∃ f2', f2 = f2' + 1 := ⟨f2 - 1, by omega⟩
    rw [seriesLoop] at h ⊢
    by_cases hg : |prev - rez| > tol
    · rw [if_pos hg] at h ⊢
      exact ih _ _ _ _ _ (by omega) h
    · rwa [if_neg hg] at h ⊢

/-- If some term at or beyond the current index is within the tolerance,
the loop finishes on fuel two beyond the distance to that term. -/
theorem seriesLoop_isSome_of_term_small (v tol : ℚ) (kind : ℕ) :
    ∀ (j m : ℕ) (rez prev : ℚ), tabs v kind (m + j) ≤ tol →
      ∃ out, seriesLoop v tol kind (j + 2) rez prev m = some out := by
  intro j
  induction j with
  | zero =>
    intro m rez prev hsmall
    rw [show 0 + 2 = 2 from rfl, seriesLoop]
    by_cases hg : |prev - rez| > tol
    · rw [if_pos hg, seriesLoop]
      have hg2 : ¬ (|rez - (rez + (-1) ^ m * v ^ (2 * m + kind) /
          (factorial (2 * m + kind) : ℚ))| > tol) := by
        rw [show rez - (rez + (-1) ^ m * v ^ (2 * m + kind) /
            (factorial (2 * m + kind) : ℚ)) = -(termQ v kind m) by unfold termQ; ring,
          abs_neg, abs_termQ]
        rw [Nat.add_zero] at hsmall
        exact not_lt.mpr hsmall
      rw [if_neg hg2]
      exact ⟨_, rfl⟩
    · rw [if_neg hg]; exact ⟨_, rfl⟩
  | succ j ih =>
    intro m rez prev hsmall
    rw [show j + 1 + 2 = (j + 2) + 1 by omega, seriesLoop]
    by_cases hg : |prev - rez| > tol
    · rw [if_pos hg]
      exact ih (m + 1) _ _ (by rw [show m + 1 + j = m + (j + 1) by omega]; exact hsmall)
    · rw [if_neg hg]; exact ⟨_, rfl⟩

/-! ### Decay of the series terms and sufficiency of the fuel -/

theorem tabs_zero_kind_zero (v : ℚ) : tabs v 0 0 = 1 := by
  simp [tabs, factorial]

theorem tabs_succ (v : ℚ) (kind s : ℕ) :
    tabs v kind (s + 1) =
      tabs v kind s * (v ^ 2 / ((2 * s + kind + 1) * (2 * s + kind + 2) : ℕ)) := by
  unfold tabs
  have harg : 2 * (s + 1) + kind = (2 * s + kind + 1) + 1 := by omega
  rw [harg, factorial_succ, show (2 * s + kind + 1) = (2 * s + kind) + 1 from rfl,
    factorial_succ]
  have hpow : |v| ^ (2 * s + kind + 1 + 1) = |v| ^ (2 * s + kind) * v ^ 2 := by
    rw [pow_succ, pow_succ, ← sq_abs]
    ring
  rw [hpow]
  push_cast
  have h1 : ((factorial (2 * s + kind) : ℚ)) ≠ 0 := ne_of_gt (factorial_cast_pos _)
  have h2 : ((2 * s + kind : ℕ) : ℚ) + 1 ≠ 0 := by positivity
  have h3 : ((2 * s + kind : ℕ) : ℚ) + 1 + 1 ≠ 0 := by positivity
  field_simp
  ring_nf
  exact Or.inl trivial

theorem tabs_succ_le_half (v : ℚ) (kind s : ℕ) (hv : |v| ≤ 7) (hs : 7 ≤ s) :
    tabs v kind (s + 1) ≤ tabs v kind s * (1 / 2) := by
  rw [tabs_succ]
  refine mul_le_mul_of_nonneg_left ?_ (tabs_nonneg v kind s)
  have hden : (240 : ℚ) ≤ ((2 * s + kind + 1) * (2 * s + kind + 2) : ℕ) := by
    have : 240 ≤ (2 * s + kind + 1) * (2 * s + kind + 2) := by nlinarith
    exact_mod_cast this
  have hnum : v ^ 2 ≤ 49 := by
    have := abs_nonneg v
    nlinarith [sq_abs v]
  have hdenpos : (0 : ℚ) < ((2 * s + kind + 1) * (2 * s + kind + 2) : ℕ) := by positivity
  rw [div_le_iff hdenpos]
  nlinarith

theorem tabs_seven_le_eight (v : ℚ) (kind : ℕ) (hv : |v| ≤ 7) (hk : kind ≤ 1) :
    tabs v kind 7 ≤ 8 := by
  interval_cases kind
  · unfold tabs
    have h14 : (factorial 14 : ℚ) = 87178291200 := by norm_num [factorial_eq, Nat.factorial]
    rw [show 2 * 7 + 0 = 14 from rfl, h14]
    have : |v| ^ 14 ≤ 7 ^ 14 := pow_le_pow_left (abs_nonneg v) hv 14
    rw [div_le_iff (by norm_num)]
    nlinarith
  · unfold tabs
    have h15 : (factorial 15 : ℚ) = 1307674368000 := by norm_num [factorial_eq, Nat.factorial]
    rw [show 2 * 7 + 1 = 15 from rfl, h15]
    have : |v| ^ 15 ≤ 7 ^ 15 := pow_le_pow_left (abs_nonneg v) hv 15
    rw [div_le_iff (by norm_num)]
    nlinarith

theorem tabs_decay (v : ℚ) (kind : ℕ) (hv : |v| ≤ 7) (hk : kind ≤ 1) :
    ∀ j, tabs v kind (7 + j) ≤ 8 / 2 ^ j := by
  intro j
  induction j with
  | zero => simpa using tabs_seven_le_eight v kind hv hk
  | succ j ih =>
    have := tabs_succ_le_half v kind (7 + j) hv (by omega)
    calc tabs v kind (7 + (j + 1)) = tabs v kind ((7 + j) + 1) := by ring_nf
      _ ≤ tabs v kind (7 + j) * (1 / 2) := this
      _ ≤ (8 / 2 ^ j) * (1 / 2) := by
          refine mul_le_mul_of_nonneg_right ih (by norm_num)
      _ = 8 / 2 ^ (j + 1) := by rw [pow_succ]; ring

/-- With `tol > 0` and a range-reduced angle, some term within the supplied
fuel is at most the tolerance. -/
theorem exists_small_term (v tol : ℚ) (kind : ℕ) (htol : 0 < tol)
    (hv : |v| ≤ 7) (hk : kind ≤ 1) :
    ∃ n, tabs v kind n ≤ tol ∧ n + 2 ≤ seriesFuel tol := by
  set j := (⌈(64 : ℚ) / tol⌉).toNat with hj
  refine ⟨7 + j, ?_, by simp [seriesFuel, hj]; omega⟩
  have h1 : tabs v kind (7 + j) ≤ 8 / 2 ^ j := tabs_decay v kind hv hk j
  have hce : (0 : ℤ) ≤ ⌈(64 : ℚ) / tol⌉ := Int.ceil_nonneg (by positivity)
  have h2 : ((64 : ℚ) / tol) ≤ (j : ℚ) := by
    have hcast : ((j : ℤ) : ℚ) = ((⌈(64 : ℚ) / tol⌉ : ℤ) : ℚ) := by
      rw [hj, Int.toNat_of_nonneg hce]
    calc ((64 : ℚ) / tol) ≤ ((⌈(64 : ℚ) / tol⌉ : ℤ) : ℚ) := Int.le_ceil _
      _ = (j : ℚ) := by rw [← hcast]; push_cast; rfl
  have h3 : (j : ℚ) + 1 ≤ 2 ^ j := by
    have hnat : j + 1 ≤ 2 ^ j := Nat.succ_le_of_lt (Nat.lt_two_pow j)
    exact_mod_cast hnat
  have h4 : (64 : ℚ) ≤ tol * 2 ^ j := by
    have : (64 : ℚ) / tol ≤ 2 ^ j := le_trans h2 (by linarith)
    calc (64 : ℚ) = (64 / tol) * tol := by field_simp
      _ ≤ 2 ^ j * tol := mul_le_mul_of_nonneg_right this (le_of_lt htol)
      _ = tol * 2 ^ j := by ring
  have h5 : (8 : ℚ) / 2 ^ j ≤ tol := by
    rw [div_le_iff (by positivity)]
    nlinarith
  linarith

/-! ### The range-reduction loops -/

theorem stripDown_isSome :
    ∀ (fuel : ℕ) (v : ℚ), v < PERIOD * fuel + PERIOD →
      ∃ w, stripDown (fuel + 1) v = some w := by
  intro fuel
  induction fuel with
  | zero =>
    intro v hv
    rw [stripDown]
    rw [if_neg (by push_cast at hv; simpa using not_le.mpr (by linarith))]
    exact ⟨v, rfl⟩
  | succ fuel ih =>
    intro v hv
    rw [stripDown]
    by_cases hg : v ≥ PERIOD
    · rw [if_pos hg]
      exact ih (v - PERIOD) (by push_cast at hv ⊢; linarith)
    · rw [if_neg hg]
      exact ⟨v, rfl⟩

theorem stripDown_spec :
    ∀ (fuel : ℕ) (v w : ℚ), stripDown fuel v = some w →
      w < PERIOD ∧ (w = v ∨ 0 ≤ w) := by
  intro fuel
  induction fuel with
  | zero => intro v w h; simp [stripDown] at h
  | succ fuel ih =>
    intro v w h
    rw [stripDown] at h
    by_cases hg : v ≥ PERIOD
    · rw [if_pos hg] at h
      obtain ⟨h1, h2⟩ := ih (v - PERIOD) w h
      refine ⟨h1, Or.inr ?_⟩
      rcases h2 with rfl | h2
      · linarith
      · exact h2
    · rw [if_neg hg] at h
      obtain rfl := Option.some.inj h
      exact ⟨not_le.mp hg, Or.inl rfl⟩

theorem stripUp_isSome :
    ∀ (fuel : ℕ) (v : ℚ), -v < PERIOD * fuel + PERIOD →
      ∃ w, stripUp (fuel + 1) v = some w := by
  intro fuel
  induction fuel with
  | zero =>
    intro v hv
    rw [stripUp]
    rw [if_neg (by push_cast at hv; simpa using not_le.mpr (by linarith))]
    exact ⟨v, rfl⟩
  | succ fuel ih =>
    intro v hv
    rw [stripUp]
    by_cases hg : v ≤ -PERIOD
    · rw [if_pos hg]
      exact ih (v + PERIOD) (by push_cast at hv ⊢; linarith)
    · rw [if_neg hg]
      exact ⟨v, rfl⟩

theorem stripUp_spec :
    ∀ (fuel : ℕ) (v w : ℚ), stripUp fuel v = some w →
      -PERIOD < w ∧ (w = v ∨ w ≤ 0) := by
  intro fuel
  induction fuel with
  | zero => intro v w h; simp [stripUp] at h
  | succ fuel ih =>
    intro v w h
    rw [stripUp] at h
    by_cases hg : v ≤ -PERIOD
    · rw [if_pos hg] at h
      obtain ⟨h1, h2⟩ := ih (v + PERIOD) w h
      refine ⟨h1, Or.inr ?_⟩
      rcases h2 with rfl | h2
      · linarith
      · exact h2
    · rw [if_neg hg] at h
      obtain rfl := Option.some.inj h
      exact ⟨not_le.mp hg, Or.inl rfl⟩

/-- The absolute value is at most `PERIOD` times the ceiling used as fuel. -/
theorem abs_le_period_mul_fuel (v : ℚ) :
    |v| ≤ PERIOD * ((⌈|v| / PERIOD⌉).toNat : ℚ) := by
  have hce : (0 : ℤ) ≤ ⌈|v| / PERIOD⌉ :=
    Int.ceil_nonneg (div_nonneg (abs_nonneg v) (le_of_lt PERIOD_pos))
  have h1 : |v| / PERIOD ≤ ((⌈|v| / PERIOD⌉ : ℤ) : ℚ) := Int.le_ceil _
  have h2 : ((⌈|v| / PERIOD⌉ : ℤ) : ℚ) = ((⌈|v| / PERIOD⌉.toNat : ℕ) : ℚ) := by
    rw [← Int.toNat_of_nonneg hce]; push_cast; rfl
  calc |v| = (|v| / PERIOD) * PERIOD :=
        (div_mul_cancel₀ _ (ne_of_gt PERIOD_pos)).symm
    _ ≤ ((⌈|v| / PERIOD⌉ : ℤ) : ℚ) * PERIOD :=
        mul_le_mul_of_nonneg_right h1 (le_of_lt PERIOD_pos)
    _ = PERIOD * ((⌈|v| / PERIOD⌉.toNat : ℕ) : ℚ) := by rw [h2]; ring

/-- The range reduction always finishes, with a value strictly inside
`(-PERIOD, PERIOD)`. -/
theorem reduceAngle_isSome_bounds (q : ℚ) :
    ∃ v, reduceAngle q = some v ∧ -PERIOD < v ∧ v < PERIOD := by
  set t := (⌈|q| / PERIOD⌉).toNat with htdef
  have habs : |q| ≤ PERIOD * (t : ℚ) := abs_le_period_mul_fuel q
  have hP := PERIOD_pos
  have hdown : ∃ w, stripDown (t + 1) q = some w := by
    refine stripDown_isSome t q ?_
    have hq : q ≤ |q| := le_abs_self q
    linarith
  obtain ⟨w, hw⟩ := hdown
  obtain ⟨hw1, hw2⟩ := stripDown_spec (t + 1) q w hw
  have hup : ∃ u, stripUp (t + 1) w = some u := by
    refine stripUp_isSome t w ?_
    rcases hw2 with rfl | hw2
    · have hq : -w ≤ |w| := neg_le_abs w
      linarith
    · have h0 : (0 : ℚ) ≤ PERIOD * (t : ℚ) := by positivity
      linarith
  obtain ⟨u, hu⟩ := hup
  obtain ⟨hu1, hu2⟩ := stripUp_spec (t + 1) w u hu
  refine ⟨u, ?_, hu1, ?_⟩
  · rw [reduceAngle]
    have hf : reduceFuel q = t + 1 := rfl
    rw [hf, hw]
    exact hu
  · rcases hu2 with rfl | hu2
    · exact hw1
    · linarith

/-! ### Full behaviour of `template` on finite angles -/

/-- On a finite angle and a positive tolerance, `template` terminates: the
range reduction lands strictly inside `(-PERIOD, PERIOD)`, the series loop
finishes within the supplied fuel at the first in-tolerance guard, and the
result is the rounded partial sum. -/
theorem template_finite_total (q tol : ℚ) (kind : ℕ) (htol : 0 < tol) (hk : kind ≤ 1) :
    ∃ v rez n, reduceAngle q = some v ∧ -PERIOD < v ∧ v < PERIOD ∧
      seriesLoop v tol kind (seriesFuel tol) 0 1 0 = some (rez, n) ∧
      template (F64.finite q) tol kind =
        some (F64.finite (round_up_to_decimal rez 6), false) ∧
      rez = psum v kind n ∧ chk v kind n ≤ tol ∧
      ∀ j, j < n → tol < chk v kind j := by
  obtain ⟨v, hv, hvlo, hvhi⟩ := reduceAngle_isSome_bounds q
  have hv7 : |v| ≤ 7 := by
    have : |v| < PERIOD := abs_lt.mpr ⟨hvlo, hvhi⟩
    linarith [PERIOD_le_seven]
  obtain ⟨n0, hn0, hn0fuel⟩ := exists_small_term v tol kind htol hv7 hk
  obtain ⟨out, hout⟩ := seriesLoop_isSome_of_term_small v tol kind n0 0 0 1
    (by simpa using hn0)
  have hloop : seriesLoop v tol kind (seriesFuel tol) 0 1 0 = some out :=
    seriesLoop_fuel_mono v tol kind (n0 + 2) 0 1 0 (seriesFuel tol) out hn0fuel hout
  obtain ⟨rez, n⟩ := out
  have hspec := seriesLoop_spec v tol kind (seriesFuel tol) 0 rez n
    (by simpa [psum, prevAt] using hloop)
  obtain ⟨-, hrez, hchk, hguards⟩ := hspec
  refine ⟨v, rez, n, hv, hvlo, hvhi, hloop, ?_, hrez, hchk,
    fun j hj => hguards j (Nat.zero_le j) hj⟩
  show (reduceAngle q).bind _ = _
  rw [hv, Option.some_bind, hloop, Option.map_some']

/-! ### Canonical form of the range reduction -/

theorem stripDown_canon :
    ∀ (fuel : ℕ) (v w : ℚ), 0 ≤ v → stripDown fuel v = some w →
      w = v - PERIOD * (⌊v / PERIOD⌋ : ℚ) := by
  intro fuel
  induction fuel with
  | zero => intro v w _ h; simp [stripDown] at h
  | succ fuel ih =>
    intro v w hv h
    rw [stripDown] at h
    by_cases hg : v ≥ PERIOD
    · rw [if_pos hg] at h
      have hv' : 0 ≤ v - PERIOD := by linarith
      have := ih (v - PERIOD) w hv' h
      have hdiv : (v - PERIOD) / PERIOD = v / PERIOD - 1 := by
        rw [sub_div, div_self (ne_of_gt PERIOD_pos)]
      have hfloor : ⌊(v - PERIOD) / PERIOD⌋ = ⌊v / PERIOD⌋ - 1 := by
        rw [hdiv, show ((1 : ℚ)) = ((1 : ℤ) : ℚ) by norm_num, Int.floor_sub_int]
      rw [this, hfloor]
      push_cast
      ring
    · rw [if_neg hg] at h
      obtain rfl := Option.some.inj h
      have hfloor : ⌊v / PERIOD⌋ = 0 := by
        rw [Int.floor_eq_zero_iff]
        constructor
        · exact div_nonneg hv (le_of_lt PERIOD_pos)
        · rw [div_lt_one PERIOD_pos]
          exact not_le.mp hg
      rw [hfloor]
      push_cast
      ring

theorem stripUp_canon :
    ∀ (fuel : ℕ) (v w : ℚ), v ≤ 0 → stripUp fuel v = some w →
      w = v + PERIOD * (⌊(-v) / PERIOD⌋ : ℚ) := by
  intro fuel
  induction fuel with
  | zero => intro v w _ h; simp [stripUp] at h
  | succ fuel ih =>
    intro v w hv h
    rw [stripUp] at h
    by_cases hg : v ≤ -PERIOD
    · rw [if_pos hg] at h
      have hv' : v + PERIOD ≤ 0 := by linarith
      have := ih (v + PERIOD) w hv' h
      have hdiv : (-(v + PERIOD)) / PERIOD = (-v) / PERIOD - 1 := by
        rw [show -(v + PERIOD) = -v - PERIOD by ring, sub_div,
          div_self (ne_of_gt PERIOD_pos)]
      have hfloor : ⌊(-(v + PERIOD)) / PERIOD⌋ = ⌊(-v) / PERIOD⌋ - 1 := by
        rw [hdiv, show ((1 : ℚ)) = ((1 : ℤ) : ℚ) by norm_num, Int.floor_sub_int]
      rw [this, hfloor]
      push_cast
      ring
    · rw [if_neg hg] at h
      obtain rfl := Option.some.inj h
      have hfloor : ⌊(-v) / PERIOD⌋ = 0 := by
        rw [Int.floor_eq_zero_iff]
        constructor
        · exact div_nonneg (by linarith) (le_of_lt PERIOD_pos)
        · rw [div_lt_one PERIOD_pos]
          linarith [not_le.mp hg]
      rw [hfloor]
      push_cast
      ring

/-- On a nonnegative angle the range reduction computes the canonical
representative `v - PERIOD * ⌊v / PERIOD⌋`. -/
theorem reduceAngle_canon_nonneg (q : ℚ) (hq : 0 ≤ q) :
    reduceAngle q = some (q - PERIOD * (⌊q / PERIOD⌋ : ℚ)) := by
  obtain ⟨v, hv, hvlo, hvhi⟩ := reduceAngle_isSome_bounds q
  rw [reduceAngle] at hv ⊢
  obtain ⟨w, hw⟩ : ∃ w, stripDown (reduceFuel q) q = some w := by
    rcases hd : stripDown (reduceFuel q) q with - | w
    · rw [hd] at hv; simp at hv
    · exact ⟨w, rfl⟩
  have hwc := stripDown_canon (reduceFuel q) q w hq hw
  have hw0 : 0 ≤ w := by
    rw [hwc]
    have h1 : (⌊q / PERIOD⌋ : ℚ) ≤ q / PERIOD := Int.floor_le _
    have h2 : PERIOD * (⌊q / PERIOD⌋ : ℚ) ≤ PERIOD * (q / PERIOD) :=
      mul_le_mul_of_nonneg_left h1 (le_of_lt PERIOD_pos)
    have h3 : PERIOD * (q / PERIOD) = q := by
      rw [mul_comm, div_mul_cancel₀ q (ne_of_gt PERIOD_pos)]
    linarith
  obtain ⟨t, ht⟩ : ∃ t, reduceFuel q = t + 1 := ⟨(⌈|q| / PERIOD⌉).toNat, rfl⟩
  rw [hw, Option.some_bind, ht, stripUp,
    if_neg (by push_neg; linarith [PERIOD_pos]), hwc]

/-- On a nonpositive angle the range reduction computes the canonical
representative `v + PERIOD * ⌊(-v) / PERIOD⌋`. -/
theorem reduceAngle_canon_nonpos (q : ℚ) (hq : q ≤ 0) :
    reduceAngle q = some (q + PERIOD * (⌊(-q) / PERIOD⌋ : ℚ)) := by
  rw [reduceAngle]
  obtain ⟨t, ht⟩ : ∃ t, reduceFuel q = t + 1 := ⟨(⌈|q| / PERIOD⌉).toNat, rfl⟩
  have hdown : stripDown (reduceFuel q) q = some q := by
    rw [ht, stripDown, if_neg (by push_neg; linarith [PERIOD_pos])]
  rw [hdown, Option.some_bind]
  obtain ⟨v, hv, -, -⟩ := reduceAngle_isSome_bounds q
  rw [reduceAngle, hdown, Option.some_bind] at hv
  rw [hv, stripUp_canon (reduceFuel q) q v hq hv]

/-- Adding whole periods to a nonnegative angle does not change the
range-reduced value. -/
theorem reduceAngle_add_periods (x : ℚ) (k : ℕ) (hx : 0 ≤ x) :
    reduceAngle (x + PERIOD * k) = reduceAngle x := by
  have hx' : 0 ≤ x + PERIOD * k := by
    have : (0 : ℚ) ≤ PERIOD * k := mul_nonneg (le_of_lt PERIOD_pos) (by positivity)
    linarith
  rw [reduceAngle_canon_nonneg x hx, reduceAngle_canon_nonneg _ hx']
  have hdiv : (x + PERIOD * k) / PERIOD = x / PERIOD + (k : ℚ) := by
    rw [add_div, mul_comm PERIOD (k : ℚ), mul_div_assoc,
      div_self (ne_of_gt PERIOD_pos), mul_one]
  have hfloor : ⌊(x + PERIOD * k) / PERIOD⌋ = ⌊x / PERIOD⌋ + k := by
    rw [hdiv, Int.floor_add_nat]
  rw [hfloor]
  congr 1
  push_cast
  ring

/-- Subtracting whole periods from a nonpositive angle does not change the
range-reduced value. -/
theorem reduceAngle_sub_periods (x : ℚ) (k : ℕ) (hx : x ≤ 0) :
    reduceAngle (x - PERIOD * k) = reduceAngle x := by
  have hx' : x - PERIOD * k ≤ 0 := by
    have : (0 : ℚ) ≤ PERIOD * k := mul_nonneg (le_of_lt PERIOD_pos) (by positivity)
    linarith
  rw [reduceAngle_canon_nonpos x hx, reduceAngle_canon_nonpos _ hx']
  have hdiv : (-(x - PERIOD * k)) / PERIOD = (-x) / PERIOD + (k : ℚ) := by
    rw [show -(x - PERIOD * k) = -x + PERIOD * k by ring, add_div,
      mul_comm PERIOD (k : ℚ), mul_div_assoc, div_self (ne_of_gt PERIOD_pos), mul_one]
  have hfloor : ⌊(-(x - PERIOD * k)) / PERIOD⌋ = ⌊(-x) / PERIOD⌋ + k := by
    rw [hdiv, Int.floor_add_nat]
  rw [hfloor]
  congr 1
  push_cast
  ring

/-- A `template` call on a finite angle depends on the angle only through
the range reduction. -/
theorem template_congr_reduce (q1 q2 tol : ℚ) (kind : ℕ)
    (h : reduceAngle q1 = reduceAngle q2) :
    template (F64.finite q1) tol kind = template (F64.finite q2) tol kind := by
  show (reduceAngle q1).bind _ = (reduceAngle q2).bind _
  rw [h]

/-! ### Connecting the partial sums to the real sine and cosine -/

/-- The partial sum computed by the loop, cast to the real numbers. -/
theorem psum_cast (v : ℚ) (kind : ℕ) :
    ∀ n, ((psum v kind n : ℚ) : ℝ) =
      ∑ s ∈ Finset.range n,
        (-1 : ℝ) ^ s * ((v : ℝ)) ^ (2 * s + kind) / ((2 * s + kind).factorial : ℝ) := by
  intro n
  induction n with
  | zero => simp [psum]
  | succ n ih =>
    rw [Finset.sum_range_succ, ← ih]
    show ((psum v kind n + termQ v kind n : ℚ) : ℝ) = _
    rw [termQ, factorial_eq]
    push_cast
    ring

/-- Bound `2 v² ≤ (2m+kind+1)(2m+kind+2)` once a term of index `m` is below
`4e-7`: beyond that term the series decays at least geometrically. -/
theorem small_term_dominates (v : ℚ) (kind m : ℕ) (hk : kind ≤ 1)
    (hv : |v| ≤ 63 / 10) (hm : tabs v kind m ≤ 4 / 10 ^ 7) :
    v ^ 2 * 2 ≤ (((2 * m + kind + 1) * (2 * m + kind + 2) : ℕ) : ℚ) := by
  by_cases hbig : 8 ≤ 2 * m + kind
  · have hsq : v ^ 2 ≤ (63 / 10) ^ 2 := by nlinarith [sq_abs v, abs_nonneg v]
    have h90 : (90 : ℚ) ≤ (((2 * m + kind + 1) * (2 * m + kind + 2) : ℕ) : ℚ) := by
      have : 90 ≤ (2 * m + kind + 1) * (2 * m + kind + 2) := by nlinarith
      exact_mod_cast this
    nlinarith
  · push_neg at hbig
    rcases Nat.eq_zero_or_pos (2 * m + kind) with h0 | hpos
    · exfalso
      rw [tabs, h0] at hm
      norm_num [factorial] at hm
    have hv1 : |v| ≤ 1 := by
      by_contra hgt
      push_neg at hgt
      have hpow : 1 < |v| ^ (2 * m + kind) := one_lt_pow hgt (by omega)
      have hfact : (factorial (2 * m + kind) : ℚ) ≤ 5040 := by
        have : factorial (2 * m + kind) ≤ 5040 := by
          rw [factorial_eq]
          calc Nat.factorial (2 * m + kind) ≤ Nat.factorial 7 :=
                Nat.factorial_le (by omega)
            _ = 5040 := by norm_num [Nat.factorial]
        exact_mod_cast this
      have hge : (1 : ℚ) / 5040 ≤ tabs v kind m := by
        rw [tabs]
        calc (1 : ℚ) / 5040 ≤ 1 / (factorial (2 * m + kind) : ℚ) := by
              rw [div_le_div_iff (by norm_num) (factorial_cast_pos _)]
              linarith
          _ ≤ |v| ^ (2 * m + kind) / (factorial (2 * m + kind) : ℚ) := by
              rw [div_le_div_iff (factorial_cast_pos _) (factorial_cast_pos _)]
              nlinarith [factorial_cast_pos (2 * m + kind)]
      have : (1 : ℚ) / 5040 ≤ 4 / 10 ^ 7 := le_trans hge hm
      norm_num at this
    have hsq1 : v ^ 2 ≤ 1 := by nlinarith [sq_abs v, abs_nonneg v]
    have h6 : (6 : ℚ) ≤ (((2 * m + kind + 1) * (2 * m + kind + 2) : ℕ) : ℚ) := by
      have : 6 ≤ (2 * m + kind + 1) * (2 * m + kind + 2) := by nlinarith
      exact_mod_cast this
    nlinarith

/-- Beyond an index where the geometric-domination bound holds, each term is
at most half the previous one. -/
theorem tabs_halves (v : ℚ) (kind m : ℕ)
    (hA : v ^ 2 * 2 ≤ (((2 * m + kind + 1) * (2 * m + kind + 2) : ℕ) : ℚ)) :
    ∀ t, m ≤ t → tabs v kind (t + 1) ≤ tabs v kind t * (1 / 2) := by
  intro t ht
  rw [tabs_succ]
  refine mul_le_mul_of_nonneg_left ?_ (tabs_nonneg v kind t)
  have hdenm : (((2 * m + kind + 1) * (2 * m + kind + 2) : ℕ) : ℚ) ≤
      (((2 * t + kind + 1) * (2 * t + kind + 2) : ℕ) : ℚ) := by
    exact_mod_cast Nat.mul_le_mul (by omega) (by omega)
  have hdenpos : (0 : ℚ) < (((2 * t + kind + 1) * (2 * t + kind + 2) : ℕ) : ℚ) := by
    exact_mod_cast Nat.mul_pos (by omega) (by omega)
  rw [div_le_iff hdenpos]
  nlinarith [sq_nonneg v]

/-- Geometric decay from the domination index on. -/
theorem tabs_geometric (v : ℚ) (kind m : ℕ)
    (hA : v ^ 2 * 2 ≤ (((2 * m + kind + 1) * (2 * m + kind + 2) : ℕ) : ℚ)) :
    ∀ s, tabs v kind (m + 1 + s) ≤ tabs v kind (m + 1) * (1 / 2) ^ s := by
  intro s
  induction s with
  | zero => simp
  | succ s ih =>
    have hstep := tabs_halves v kind m hA (m + 1 + s) (by omega)
    calc tabs v kind (m + 1 + (s + 1)) = tabs v kind ((m + 1 + s) + 1) := by ring_nf
      _ ≤ tabs v kind (m + 1 + s) * (1 / 2) := hstep
      _ ≤ (tabs v kind (m + 1) * (1 / 2) ^ s) * (1 / 2) :=
          mul_le_mul_of_nonneg_right ih (by norm_num)
      _ = tabs v kind (m + 1) * (1 / 2) ^ (s + 1) := by rw [pow_succ]; ring

/-- Cast of `tabs` as the absolute value of the real series term. -/
theorem abs_term_cast (v : ℚ) (kind s : ℕ) :
    |(-1 : ℝ) ^ s * ((v : ℝ)) ^ (2 * s + kind) / ((2 * s + kind).factorial : ℝ)| =
      ((tabs v kind s : ℚ) : ℝ) := by
  have hfa : (0 : ℝ) < ((2 * s + kind).factorial : ℝ) := by
    exact_mod_cast Nat.factorial_pos (2 * s + kind)
  rw [abs_div, abs_mul, abs_pow, abs_pow, abs_neg, abs_one, one_pow, one_mul,
    abs_of_pos hfa, tabs, factorial_eq]
  push_cast
  rfl

/-- If the loop stopped right after a term within a tolerance `tol ≤ 4e-7`,
the computed partial sum is within `tol` of the limit of the series, hence
bounded by `1 + tol` whenever the limit has absolute value at most one. -/
theorem abs_psum_le_of_hasSum (v tol : ℚ) (kind m : ℕ) (F : ℝ)
    (hk : kind ≤ 1) (hv : |v| ≤ 63 / 10) (htol : tol ≤ 4 / 10 ^ 7)
    (hm : tabs v kind m ≤ tol)
    (hF : HasSum (fun s : ℕ => (-1 : ℝ) ^ s * ((v : ℝ)) ^ (2 * s + kind) /
      ((2 * s + kind).factorial : ℝ)) F)
    (hF1 : |F| ≤ 1) :
    |psum v kind (m + 1)| ≤ 1 + tol := by
  have hA := small_term_dominates v kind m hk hv (le_trans hm htol)
  have hhalf := tabs_halves v kind m hA m le_rfl
  have hgeo := tabs_geometric v kind m hA
  have hc0 : (0 : ℝ) ≤ ((tabs v kind (m + 1) : ℚ) : ℝ) := by
    exact_mod_cast tabs_nonneg v kind (m + 1)
  have hbound : ∀ i, |(-1 : ℝ) ^ (i + (m + 1)) *
      ((v : ℝ)) ^ (2 * (i + (m + 1)) + kind) /
      ((2 * (i + (m + 1)) + kind).factorial : ℝ)| ≤
      ((tabs v kind (m + 1) : ℚ) : ℝ) * (1 / 2) ^ i := by
    intro i
    rw [abs_term_cast v kind (i + (m + 1))]
    have h1 : tabs v kind (i + (m + 1)) ≤ tabs v kind (m + 1) * (1 / 2) ^ i := by
      rw [Nat.add_comm i (m + 1)]
      exact hgeo i
    calc ((tabs v kind (i + (m + 1)) : ℚ) : ℝ) ≤
        ((tabs v kind (m + 1) * (1 / 2) ^ i : ℚ) : ℝ) := by exact_mod_cast h1
      _ = ((tabs v kind (m + 1) : ℚ) : ℝ) * (1 / 2) ^ i := by push_cast; ring
  have hgsum : Summable (fun i : ℕ => ((tabs v kind (m + 1) : ℚ) : ℝ) * (1 / 2) ^ i) :=
    (summable_geometric_of_lt_one (by norm_num) (by norm_num)).mul_left _
  have habs_sum : Summable (fun i => |(-1 : ℝ) ^ (i + (m + 1)) *
      ((v : ℝ)) ^ (2 * (i + (m + 1)) + kind) /
      ((2 * (i + (m + 1)) + kind).factorial : ℝ)|) :=
    Summable.of_nonneg_of_le (fun i => abs_nonneg _) hbound hgsum
  have hfs : Summable (fun s : ℕ => (-1 : ℝ) ^ s * ((v : ℝ)) ^ (2 * s + kind) /
      ((2 * s + kind).factorial : ℝ)) := hF.summable
  have htail_eq := sum_add_tsum_nat_add (f := fun s : ℕ => (-1 : ℝ) ^ s *
      ((v : ℝ)) ^ (2 * s + kind) / ((2 * s + kind).factorial : ℝ)) (m + 1) hfs
  have habs_sum' : Summable (fun i => ‖(-1 : ℝ) ^ (i + (m + 1)) *
      ((v : ℝ)) ^ (2 * (i + (m + 1)) + kind) /
      ((2 * (i + (m + 1)) + kind).factorial : ℝ)‖) := by
    simpa only [Real.norm_eq_abs] using habs_sum
  have htail_le : |tsum (fun i : ℕ => (-1 : ℝ) ^ (i + (m + 1)) *
      ((v : ℝ)) ^ (2 * (i + (m + 1)) + kind) /
      ((2 * (i + (m + 1)) + kind).factorial : ℝ))| ≤
      ((tabs v kind (m + 1) : ℚ) : ℝ) * 2 := by
    have h1 := norm_tsum_le_tsum_norm habs_sum'
    simp only [Real.norm_eq_abs] at h1
    have h2 := tsum_le_tsum hbound habs_sum hgsum
    have h3 : tsum (fun i : ℕ => ((tabs v kind (m + 1) : ℚ) : ℝ) * (1 / 2) ^ i) =
        ((tabs v kind (m + 1) : ℚ) : ℝ) * 2 := by
      rw [tsum_mul_left, tsum_geometric_of_lt_one (by norm_num) (by norm_num)]
      norm_num
    linarith
  have hc_le : ((tabs v kind (m + 1) : ℚ) : ℝ) * 2 ≤ ((tol : ℚ) : ℝ) := by
    have h1 : tabs v kind (m + 1) * 2 ≤ tol := by linarith
    calc ((tabs v kind (m + 1) : ℚ) : ℝ) * 2
        = ((tabs v kind (m + 1) * 2 : ℚ) : ℝ) := by push_cast; ring
      _ ≤ ((tol : ℚ) : ℝ) := by exact_mod_cast h1
  have hmain : |((psum v kind (m + 1) : ℚ) : ℝ)| ≤ 1 + ((tol : ℚ) : ℝ) := by
    rw [psum_cast]
    have hdec : (∑ i ∈ Finset.range (m + 1), (-1 : ℝ) ^ i *
        ((v : ℝ)) ^ (2 * i + kind) / ((2 * i + kind).factorial : ℝ)) =
        F - tsum (fun i : ℕ => (-1 : ℝ) ^ (i + (m + 1)) *
          ((v : ℝ)) ^ (2 * (i + (m + 1)) + kind) /
          ((2 * (i + (m + 1)) + kind).factorial : ℝ)) := by
      rw [← hF.tsum_eq, ← htail_eq]
      ring
    rw [hdec]
    calc |F - tsum (fun i : ℕ => (-1 : ℝ) ^ (i + (m + 1)) *
          ((v : ℝ)) ^ (2 * (i + (m + 1)) + kind) /
          ((2 * (i + (m + 1)) + kind).factorial : ℝ))|
        ≤ |F| + |tsum (fun i : ℕ => (-1 : ℝ) ^ (i + (m + 1)) *
          ((v : ℝ)) ^ (2 * (i + (m + 1)) + kind) /
          ((2 * (i + (m + 1)) + kind).factorial : ℝ))| := abs_sub _ _
      _ ≤ 1 + ((tabs v kind (m + 1) : ℚ) : ℝ) * 2 := add_le_add hF1 htail_le
      _ ≤ 1 + ((tol : ℚ) : ℝ) := by linarith
  have hfin : ((|psum v kind (m + 1)| : ℚ) : ℝ) ≤ ((1 + tol : ℚ) : ℝ) := by
    rw [Rat.cast_abs]
    push_cast at hmain ⊢
    linarith
  exact_mod_cast hfin

/-- The alternating series with offset `kind = 1` sums to the real sine. -/
theorem hasSum_kind_one (v : ℚ) :
    HasSum (fun s : ℕ => (-1 : ℝ) ^ s * ((v : ℝ)) ^ (2 * s + 1) /
      ((2 * s + 1).factorial : ℝ)) (Real.sin ((v : ℝ))) :=
  Real.hasSum_sin _

/-- The alternating series with offset `kind = 0` sums to the real cosine. -/
theorem hasSum_kind_zero (v : ℚ) :
    HasSum (fun s : ℕ => (-1 : ℝ) ^ s * ((v : ℝ)) ^ (2 * s + 0) /
      ((2 * s + 0).factorial : ℝ)) (Real.cos ((v : ℝ))) := by
  simpa using Real.hasSum_cos ((v : ℝ))

/-- Rounding to six decimals maps `[-1 - 4e-7, 1 + 4e-7]` into `[-1, 1]`. -/
theorem abs_round6_le_one (y : ℚ) (hy : |y| ≤ 1 + 4 / 10 ^ 7) :
    |round_up_to_decimal y 6| ≤ 1 := by
  rw [round_up_to_decimal, abs_div, abs_of_pos (show (0 : ℚ) < 10 ^ 6 by norm_num),
    div_le_one (by norm_num)]
  have hz1 : y * 10 ^ 6 ≤ 10 ^ 6 + 2 / 5 := by
    have h := le_abs_self y
    have h2 := abs_nonneg y
    nlinarith
  have hz2 : -(10 ^ 6 + 2 / 5) ≤ y * 10 ^ 6 := by
    have h := neg_abs_le y
    nlinarith
  rw [ratRound]
  by_cases h0 : 0 ≤ y * 10 ^ 6
  · rw [if_pos h0]
    have h2 : (0 : ℤ) ≤ ⌊y * 10 ^ 6 + 1 / 2⌋ := Int.floor_nonneg.mpr (by linarith)
    have h3 : ⌊y * 10 ^ 6 + 1 / 2⌋ ≤ (10 ^ 6 : ℤ) := by
      have hlt : y * 10 ^ 6 + 1 / 2 < ((10 ^ 6 + 1 : ℤ) : ℚ) := by push_cast; linarith
      have := Int.floor_lt.mpr hlt
      omega
    have habs : |((⌊y * 10 ^ 6 + 1 / 2⌋ : ℤ) : ℚ)| = ((⌊y * 10 ^ 6 + 1 / 2⌋ : ℤ) : ℚ) :=
      abs_of_nonneg (by exact_mod_cast h2)
    rw [habs]
    exact_mod_cast h3
  · rw [if_neg h0]
    push_neg at h0
    have h2 : ⌈y * 10 ^ 6 - 1 / 2⌉ ≤ (0 : ℤ) := Int.ceil_le.mpr (by push_cast; linarith)
    have h3 : (-(10 ^ 6) : ℤ) ≤ ⌈y * 10 ^ 6 - 1 / 2⌉ := by
      have hlt : ((-(10 ^ 6) - 1 : ℤ) : ℚ) < y * 10 ^ 6 - 1 / 2 := by push_cast; linarith
      have := Int.lt_ceil.mpr hlt
      omega
    have habs : |((⌈y * 10 ^ 6 - 1 / 2⌉ : ℤ) : ℚ)| = -((⌈y * 10 ^ 6 - 1 / 2⌉ : ℤ) : ℚ) :=
      abs_of_nonpos (by exact_mod_cast h2)
    rw [habs]
    have h4 : (-(10 ^ 6 : ℚ)) ≤ ((⌈y * 10 ^ 6 - 1 / 2⌉ : ℤ) : ℚ) := by exact_mod_cast h3
    linarith

/-- Backbone for the amended C8: with `0 < tol ≤ 4e-7`, any finite value
returned by `template` lies in `[-1, 1]`. -/
theorem template_abs_le_one (q tol : ℚ) (kind : ℕ) (hk : kind ≤ 1)
    (htol0 : 0 < tol) (htol : tol ≤ 4 / 10 ^ 7) :
    ∀ R b, template (F64.finite q) tol kind = some (F64.finite R, b) → |R| ≤ 1 := by
  intro R b htmpl
  obtain ⟨v, rez, n, hv, hvlo, hvhi, hloop, htm, hrez, hchk, hguards⟩ :=
    template_finite_total q tol kind htol0 hk
  have heq : (some (F64.finite R, b) : Option (F64 × Bool)) =
      some (F64.finite (round_up_to_decimal rez 6), false) := htmpl.symm.trans htm
  simp only [Option.some.injEq, Prod.mk.injEq, F64.finite.injEq] at heq
  obtain ⟨hR, -⟩ := heq
  have hn1 : 1 ≤ n := by
    by_contra h
    push_neg at h
    interval_cases n
    rw [chk_zero] at hchk
    norm_num at htol
    linarith
  obtain ⟨m, rfl⟩ : ∃ m, n = m + 1 := ⟨n - 1, by omega⟩
  have hm : tabs v kind m ≤ tol := by rw [← chk_succ]; exact hchk
  have hv63 : |v| ≤ 63 / 10 := by
    have h1 : |v| < PERIOD := abs_lt.mpr ⟨hvlo, hvhi⟩
    have h2 : PERIOD ≤ 63 / 10 := by norm_num [PERIOD, PI_F64]
    linarith
  have habs : |psum v kind (m + 1)| ≤ 1 + tol := by
    rcases Nat.le_one_iff_eq_zero_or_eq_one.mp hk with rfl | rfl
    · exact abs_psum_le_of_hasSum v tol 0 m (Real.cos ((v : ℝ))) (by norm_num) hv63 htol hm
        (hasSum_kind_zero v) (abs_le.mpr ⟨Real.neg_one_le_cos _, Real.cos_le_one _⟩)
    · exact abs_psum_le_of_hasSum v tol 1 m (Real.sin ((v : ℝ))) (by norm_num) hv63 htol hm
        (hasSum_kind_one v) (abs_le.mpr ⟨Real.neg_one_le_sin _, Real.sin_le_one _⟩)
  rw [hR, hrez]
  refine abs_round6_le_one _ ?_
  calc |psum v kind (m + 1)| ≤ 1 + tol := habs
    _ ≤ 1 + 4 / 10 ^ 7 := by linarith

theorem factorial_33_val :
    factorial 33 = 8683317618811886495518194401280000000 := by decide

theorem factorial_34_val :
    factorial 34 = 295232799039604140847618609643520000000 := by decide

/-- Numeric fact: the term of exponent 33 is below `1e-10` on the whole
reduced range. -/
theorem period_pow_33 : PERIOD ^ 33 / (factorial 33 : ℚ) ≤ 1 / 10 ^ 10 := by
  rw [factorial_33_val]
  norm_num [PERIOD, PI_F64]

/-- Numeric fact: the term of exponent 34 is below `1e-10` on the whole
reduced range. -/
theorem period_pow_34 : PERIOD ^ 34 / (factorial 34 : ℚ) ≤ 1 / 10 ^ 10 := by
  rw [factorial_34_val]
  norm_num [PERIOD, PI_F64]

/-- Terms are monotone in the angle magnitude. -/
theorem tabs_le_of_abs_le (v w : ℚ) (kind s : ℕ) (h : |v| ≤ w) :
    tabs v kind s ≤ w ^ (2 * s + kind) / (factorial (2 * s + kind) : ℚ) := by
  rw [tabs]
  exact (div_le_div_right (factorial_cast_pos _)).mpr
    (pow_le_pow_left (abs_nonneg v) h _)

/-- Backbone for the amended C4: with tolerance at least `1e-10`, the sine
loop runs at most 17 iterations and the cosine loop at most 18, so the
factorial argument `2 * step + kind` never exceeds 33 for sine and 34 for
cosine. -/
theorem steps_le_bound (q tol : ℚ) (kind : ℕ) (hk : kind ≤ 1)
    (htol : 1 / 10 ^ 10 ≤ tol) :
    ∀ v rez n, reduceAngle q = some v →
      seriesLoop v tol kind (seriesFuel tol) 0 1 0 = some (rez, n) →
      n ≤ 18 - kind := by
  intro v rez n hv hloop
  obtain ⟨v', hv', hlo, hhi⟩ := reduceAngle_isSome_bounds q
  rw [hv] at hv'
  obtain rfl := Option.some.inj hv'
  have hvP : |v| ≤ PERIOD := le_of_lt (abs_lt.mpr ⟨hlo, hhi⟩)
  have hspec := seriesLoop_spec v tol kind (seriesFuel tol) 0 rez n
    (by simpa [psum, prevAt] using hloop)
  obtain ⟨-, -, -, hguards⟩ := hspec
  by_contra hbig
  push_neg at hbig
  rcases Nat.le_one_iff_eq_zero_or_eq_one.mp hk with rfl | rfl
  · have hj : tol < chk v 0 18 := hguards 18 (Nat.zero_le _) (by omega)
    rw [show (18 : ℕ) = 17 + 1 from rfl, chk_succ] at hj
    have hsmall : tabs v 0 17 ≤ 1 / 10 ^ 10 := by
      calc tabs v 0 17 ≤ PERIOD ^ (2 * 17 + 0) / (factorial (2 * 17 + 0) : ℚ) :=
            tabs_le_of_abs_le v PERIOD 0 17 hvP
        _ = PERIOD ^ 34 / (factorial 34 : ℚ) := by norm_num
        _ ≤ 1 / 10 ^ 10 := period_pow_34
    linarith
  · have hj : tol < chk v 1 17 := hguards 17 (Nat.zero_le _) (by omega)
    rw [show (17 : ℕ) = 16 + 1 from rfl, chk_succ] at hj
    have hsmall : tabs v 1 16 ≤ 1 / 10 ^ 10 := by
      calc tabs v 1 16 ≤ PERIOD ^ (2 * 16 + 1) / (factorial (2 * 16 + 1) : ℚ) :=
            tabs_le_of_abs_le v PERIOD 1 16 hvP
        _ = PERIOD ^ 33 / (factorial 33 : ℚ) := by norm_num
        _ ≤ 1 / 10 ^ 10 := period_pow_33
    linarith

/-! ### The overflow-checked factorial and the overflow-free regime -/

theorem factorialChecked_succ (n : ℕ) :
    factorialChecked (n + 1) = (factorialChecked n).bind fun a =>
      if a * (((n + 1 : ℕ) : ℕ) : ℤ) ≤ 2 ^ 127 - 1
      then some (a * (((n + 1 : ℕ) : ℕ) : ℤ)) else none := by
  unfold factorialChecked
  rw [List.range'_1_concat, List.foldl_append]
  simp only [List.foldl_cons, List.foldl_nil]
  rw [Nat.add_comm 1 n]

/-- Whenever the exact factorial fits `i128`, the checked computation
returns it (no intermediate product can overflow, since factorials are
monotone). -/
theorem factorialChecked_eq_of_le :
    ∀ n, ((factorial n : ℕ) : ℤ) ≤ 2 ^ 127 - 1 →
      factorialChecked n = some (((factorial n : ℕ) : ℤ)) := by
  intro n
  induction n with
  | zero => intro _; rfl
  | succ n ih =>
    intro h
    have hmono : ((factorial n : ℕ) : ℤ) ≤ ((factorial (n + 1) : ℕ) : ℤ) := by
      have : factorial n ≤ factorial (n + 1) := by
        rw [factorial_succ]
        exact Nat.le_mul_of_pos_right _ (by omega)
      exact_mod_cast this
    rw [factorialChecked_succ, ih (le_trans hmono h), Option.some_bind]
    have heq : ((factorial n : ℕ) : ℤ) * (((n + 1 : ℕ) : ℕ) : ℤ) =
        ((factorial (n + 1) : ℕ) : ℤ) := by
      rw [factorial_succ]
      push_cast
      ring
    rw [heq, if_pos h]

/-- The factorial of every argument reachable within 17 loop iterations is
computed exactly by a checked `i128` build. -/
theorem factorialChecked_args_safe (s kind : ℕ) (hk : kind ≤ 1) (hs : s ≤ 16) :
    factorialChecked (2 * s + kind) = some (((factorial (2 * s + kind) : ℕ) : ℤ)) := by
  apply factorialChecked_eq_of_le
  have h1 : factorial (2 * s + kind) ≤ factorial 33 := by
    rw [factorial_eq, factorial_eq]
    exact Nat.factorial_le (by omega)
  have h2 : ((factorial 33 : ℕ) : ℤ) ≤ 2 ^ 127 - 1 := by
    rw [factorial_33_val]
    norm_num
  calc ((factorial (2 * s + kind) : ℕ) : ℤ) ≤ ((factorial 33 : ℕ) : ℤ) := by
        exact_mod_cast h1
    _ ≤ 2 ^ 127 - 1 := h2

theorem factorial_32_val :
    factorial 32 = 263130836933693530167218012160000000 := by decide

/-- Numeric fact: the term of exponent 32 is below `1.4e-10` on the whole
reduced range. -/
theorem period_pow_32 : PERIOD ^ 32 / (factorial 32 : ℚ) ≤ 14 / 10 ^ 11 := by
  rw [factorial_32_val]
  norm_num [PERIOD, PI_F64]

/-- With tolerance at least `1.4e-10`, both loops run at most 17 iterations,
so every factorial argument they use is at most `2·16 + kind ≤ 33`. -/
theorem steps_le_safe (q tol : ℚ) (kind : ℕ) (hk : kind ≤ 1)
    (htol : 14 / 10 ^ 11 ≤ tol) :
    ∀ v rez n, reduceAngle q = some v →
      seriesLoop v tol kind (seriesFuel tol) 0 1 0 = some (rez, n) →
      n ≤ 17 := by
  intro v rez n hv hloop
  obtain ⟨v', hv', hlo, hhi⟩ := reduceAngle_isSome_bounds q
  rw [hv] at hv'
  obtain rfl := Option.some.inj hv'
  have hvP : |v| ≤ PERIOD := le_of_lt (abs_lt.mpr ⟨hlo, hhi⟩)
  obtain ⟨-, -, -, hguards⟩ := seriesLoop_spec v tol kind (seriesFuel tol) 0 rez n
    (by simpa [psum, prevAt] using hloop)
  by_contra hbig
  push_neg at hbig
  have hj : tol < chk v kind 17 := hguards 17 (Nat.zero_le _) (by omega)
  rw [show (17 : ℕ) = 16 + 1 from rfl, chk_succ] at hj
  rcases Nat.le_one_iff_eq_zero_or_eq_one.mp hk with rfl | rfl
  · have hsmall : tabs v 0 16 ≤ 14 / 10 ^ 11 := by
      calc tabs v 0 16 ≤ PERIOD ^ (2 * 16 + 0) / (factorial (2 * 16 + 0) : ℚ) :=
            tabs_le_of_abs_le v PERIOD 0 16 hvP
        _ = PERIOD ^ 32 / (factorial 32 : ℚ) := by norm_num
        _ ≤ 14 / 10 ^ 11 := period_pow_32
    linarith
  · have hsmall : tabs v 1 16 ≤ 14 / 10 ^ 11 := by
      calc tabs v 1 16 ≤ PERIOD ^ (2 * 16 + 1) / (factorial (2 * 16 + 1) : ℚ) :=
            tabs_le_of_abs_le v PERIOD 1 16 hvP
        _ = PERIOD ^ 33 / (factorial 33 : ℚ) := by norm_num
        _ ≤ 1 / 10 ^ 10 := period_pow_33
        _ ≤ 14 / 10 ^ 11 := by norm_num
    linarith

/-- Inversion of the `sineSteps` observation. -/
theorem sineSteps_inv (q tol : ℚ) (n : ℕ) (hn : sineSteps q tol = some n) :
    ∃ v rez, reduceAngle q = some v ∧
      seriesLoop v tol 1 (seriesFuel tol) 0 1 0 = some (rez, n) := by
  rw [sineSteps] at hn
  rcases hv : reduceAngle q with - | v
  · rw [hv] at hn
    simp at hn
  · rw [hv, Option.some_bind] at hn
    rcases hl : seriesLoop v tol 1 (seriesFuel tol) 0 1 0 with - | out
    · rw [hl] at hn
      simp at hn
    · rw [hl, Option.map_some'] at hn
      obtain rfl := Option.some.inj hn
      exact ⟨v, out.1, rfl, hl⟩

/-- Inversion of the `cosineSteps` observation. -/
theorem cosineSteps_inv (q tol : ℚ) (n : ℕ) (hn : cosineSteps q tol = some n) :
    ∃ v rez, reduceAngle q = some v ∧
      seriesLoop v tol 0 (seriesFuel tol) 0 1 0 = some (rez, n) := by
  rw [cosineSteps] at hn
  rcases hv : reduceAngle q with - | v
  · rw [hv] at hn
    simp at hn
  · rw [hv, Option.some_bind] at hn
    rcases hl : seriesLoop v tol 0 (seriesFuel tol) 0 1 0 with - | out
    · rw [hl] at hn
      simp at hn
    · rw [hl, Option.map_some'] at hn
      obtain rfl := Option.some.inj hn
      exact ⟨v, out.1, rfl, hl⟩

/-! ## The claims -/

section Claims

attribute [local semireducible] Rat.mul Rat.inv Rat.add Rat.sub

/-- C1: at tolerance `1e-10`, compared at 5 decimal places, the radian entry
points return the listed values: sine(0) = 0.00000, sine(π/2) = 1.00000,
sine(π/4) = 0.70711, sine(π) = 0.00000, sine(3π/2) = −1.00000,
sine(2π) = 0.00000, sine(6π) = 0.00000, sine(−π) = 0.00000,
sine(8π/45) = 0.52992, sine(0.5) = 0.47943, cosine(0) = 1.00000,
cosine(π/4) = 0.70711, cosine(π/2) = 0.00000, cosine(2π) = 1.00000 and
cosine(15π/2) = 0.00000. -/
theorem C1_concrete_values :
    disp5 (sine (F64.finite 0) (1 / 10 ^ 10)) = some 0 ∧
    disp5 (sine (F64.finite (PI_F64 / 2)) (1 / 10 ^ 10)) = some 1 ∧
    disp5 (sine (F64.finite (PI_F64 / 4)) (1 / 10 ^ 10)) = some (70711 / 100000) ∧
    disp5 (sine (F64.finite PI_F64) (1 / 10 ^ 10)) = some 0 ∧
    disp5 (sine (F64.finite (3 * PI_F64 / 2)) (1 / 10 ^ 10)) = some (-1) ∧
    disp5 (sine (F64.finite (2 * PI_F64)) (1 / 10 ^ 10)) = some 0 ∧
    disp5 (sine (F64.finite (6 * PI_F64)) (1 / 10 ^ 10)) = some 0 ∧
    disp5 (sine (F64.finite (-PI_F64)) (1 / 10 ^ 10)) = some 0 ∧
    disp5 (sine (F64.finite (8 * PI_F64 / 45)) (1 / 10 ^ 10)) = some (52992 / 100000) ∧
    disp5 (sine (F64.finite (1 / 2)) (1 / 10 ^ 10)) = some (47943 / 100000) ∧
    disp5 (cosine (F64.finite 0) (1 / 10 ^ 10)) = some 1 ∧
    disp5 (cosine (F64.finite (PI_F64 / 4)) (1 / 10 ^ 10)) = some (70711 / 100000) ∧
    disp5 (cosine (F64.finite (PI_F64 / 2)) (1 / 10 ^ 10)) = some 0 ∧
    disp5 (cosine (F64.finite (2 * PI_F64)) (1 / 10 ^ 10)) = some 1 ∧
    disp5 (cosine (F64.finite (15 * PI_F64 / 2)) (1 / 10 ^ 10)) = some 0 :=
  ⟨by decide, by decide, by decide, by decide, by decide, by decide, by decide,
   by decide, by decide, by decide, by decide, by decide, by decide, by decide,
   by decide⟩

/-- C2 (amended): for every tolerance, a positive-infinite,
negative-infinite or not-a-number angle makes each of the four public
functions return the NaN sentinel together with the diagnostic message;
on these invalid inputs the functions return before any arithmetic, so no
exception or error code crosses the boundary there.  (The unrestricted
no-exception clause of the original claim fails on certain valid inputs:
see the counterexample.) -/
theorem C2_invalid_inputs (tol : ℚ) :
    sine F64.posInf tol = some (F64.nan, true) ∧
    sine F64.negInf tol = some (F64.nan, true) ∧
    sine F64.nan tol = some (F64.nan, true) ∧
    cosine F64.posInf tol = some (F64.nan, true) ∧
    cosine F64.negInf tol = some (F64.nan, true) ∧
    cosine F64.nan tol = some (F64.nan, true) ∧
    sine_no_radian_arg F64.posInf tol = some (F64.nan, true) ∧
    sine_no_radian_arg F64.negInf tol = some (F64.nan, true) ∧
    sine_no_radian_arg F64.nan tol = some (F64.nan, true) ∧
    cosine_no_radian_arg F64.posInf tol = some (F64.nan, true) ∧
    cosine_no_radian_arg F64.negInf tol = some (F64.nan, true) ∧
    cosine_no_radian_arg F64.nan tol = some (F64.nan, true) :=
  ⟨rfl, rfl, rfl, rfl, rfl, rfl, rfl, rfl, rfl, rfl, rfl, rfl⟩

set_option maxRecDepth 8000 in
/-- C2 (counterexample): the clause that no exception crosses the function
boundary for any input fails on a valid one: `cosine(6.28, 1e-10)` runs 18
loop iterations, the last of which computes `factorial(2·17 + 0) =
factorial(34)`, and the overflow-checked `i128` product panics there. -/
theorem C2_counterexample :
    cosineSteps (157 / 25) (1 / 10 ^ 10) = some 18 ∧
    factorialChecked (2 * 17 + 0) = none :=
  ⟨by decide, by decide⟩

/-- C4 (counterexample): at the finite angle `6.28` with tolerance `1e-10`
the cosine loop performs 18 iterations, so its last iteration computes
`factorial(2·17+0) = factorial(34)`, and `34!` exceeds `i128::MAX =
2^127 - 1`: the claimed absence of overflow fails. -/
theorem C4_counterexample :
    cosineSteps (157 / 25) (1 / 10 ^ 10) = some 18 ∧
    2 ^ 127 - 1 < factorial (2 * 17 + 0) :=
  ⟨by decide, by decide⟩

/-- C4 (amended): for every finite angle and every tolerance at least
`1e-10`, the sine loop runs at most 17 iterations (factorial arguments at
most 33, and `33!` fits an `i128`), while the cosine loop runs at most 18
iterations (factorial arguments at most 34, and `34!` does not fit). -/
theorem C4_amended (q tol : ℚ) (htol : 1 / 10 ^ 10 ≤ tol) :
    (∀ n, sineSteps q tol = some n → n ≤ 17) ∧
    (∀ n, cosineSteps q tol = some n → n ≤ 18) ∧
    factorial 33 ≤ 2 ^ 127 - 1 ∧ 2 ^ 127 - 1 < factorial 34 := by
  refine ⟨?_, ?_, by decide, by decide⟩
  · intro n hn
    rw [sineSteps] at hn
    rcases hv : reduceAngle q with - | v
    · rw [hv] at hn; simp at hn
    · rw [hv, Option.some_bind] at hn
      rcases hl : seriesLoop v tol 1 (seriesFuel tol) 0 1 0 with - | out
      · rw [hl] at hn; simp at hn
      · rw [hl, Option.map_some'] at hn
        obtain rfl := Option.some.inj hn
        exact steps_le_bound q tol 1 (by norm_num) htol v out.1 out.2 hv hl
  · intro n hn
    rw [cosineSteps] at hn
    rcases hv : reduceAngle q with - | v
    · rw [hv] at hn; simp at hn
    · rw [hv, Option.some_bind] at hn
      rcases hl : seriesLoop v tol 0 (seriesFuel tol) 0 1 0 with - | out
      · rw [hl] at hn; simp at hn
      · rw [hl, Option.map_some'] at hn
        obtain rfl := Option.some.inj hn
        exact steps_le_bound q tol 0 (by norm_num) htol v out.1 out.2 hv hl

/-- C4 (witness): at angle 0 and tolerance `1e-10` the sine loop runs once,
within the proved bounds. -/
theorem C4_amended_witness :
    sineSteps 0 (1 / 10 ^ 10) = some 1 ∧ (1 : ℕ) ≤ 17 ∧
      factorial 33 ≤ 2 ^ 127 - 1 :=
  ⟨by decide, (C4_amended 0 (1 / 10 ^ 10) le_rfl).1 1 (by decide),
    (C4_amended 0 (1 / 10 ^ 10) le_rfl).2.2.1⟩

/-- C5 (counterexample): the tolerance `1` is positive, yet the initial
convergence check `|1 - 0| ≤ 1` already holds, so the loop body never
executes: the claim that it executes at least once for every positive
tolerance fails. -/
theorem C5_counterexample :
    (0 : ℚ) < 1 ∧ sineSteps (PI_F64 / 2) 1 = some 0 :=
  ⟨by norm_num, by decide⟩

/-- C5 (amended): for every tolerance strictly between 0 and 1, starting
from accumulated sum 0 and previous sum 1 the initial check fails, the loop
body executes at least once, and the loop stops exactly at the first state
whose guard quantity is within the tolerance. -/
theorem C5_amended (v tol : ℚ) (kind : ℕ) (h0 : 0 < tol) (h1 : tol < 1) :
    ∀ r n, seriesLoop v tol kind (seriesFuel tol) 0 1 0 = some (r, n) →
      1 ≤ n ∧ r = psum v kind n ∧ chk v kind n ≤ tol ∧
        ∀ j, j < n → tol < chk v kind j := by
  intro r n hl
  obtain ⟨-, hr, hchk, hguards⟩ := seriesLoop_spec v tol kind (seriesFuel tol) 0 r n
    (by simpa [psum, prevAt] using hl)
  have hn : 1 ≤ n := by
    by_contra h
    push_neg at h
    interval_cases n
    rw [chk_zero] at hchk
    linarith
  exact ⟨hn, hr, hchk, fun j hj => hguards j (Nat.zero_le j) hj⟩

/-- C5 (witness): at reduced angle 0, tolerance `1/2`, the sine loop runs
exactly once; the stop state is within tolerance and the start state is
not. -/
theorem C5_amended_witness :
    (1 : ℕ) ≤ 1 ∧ (0 : ℚ) = psum 0 1 1 ∧ chk 0 1 1 ≤ 1 / 2 ∧
      1 / 2 < chk 0 1 0 := by
  obtain ⟨a, b, c, d⟩ :=
    C5_amended 0 (1 / 2) 1 (by norm_num) (by norm_num) 0 1 (by decide)
  exact ⟨a, b, c, d 0 (by decide)⟩

/-- C7: the degree wrappers delegate to the radian functions on the angle
converted by `d * PI / 180`, for every input (finite or not) and every
tolerance; the results are identical, hence equal at 5 decimals. -/
theorem C7_degree_equivalence (x : F64) (d tol : ℚ) :
    sine_no_radian_arg x tol = sine (degToRad x) tol ∧
    cosine_no_radian_arg x tol = cosine (degToRad x) tol ∧
    sine_no_radian_arg (F64.finite d) tol =
      sine (F64.finite (d * PI_F64 / 180)) tol ∧
    cosine_no_radian_arg (F64.finite d) tol =
      cosine (F64.finite (d * PI_F64 / 180)) tol :=
  ⟨rfl, rfl, rfl, rfl⟩

/-- C8 (counterexample): at the finite angle `6.28` with the positive
tolerance `0.9`, `cosine` returns `1.032603 > 1`: the claimed containment
in `[-1, 1]` fails for large tolerances. -/
theorem C8_counterexample :
    resultValue (cosine (F64.finite (157 / 25)) (9 / 10)) =
      some (1032603 / 1000000) ∧ (1 : ℚ) < 1032603 / 1000000 :=
  ⟨by decide, by norm_num⟩

/-- C8 (amended): for every finite angle and every tolerance in the
interval `[1.4e-10, 4e-7]`, the values returned by `sine` and `cosine` lie
in `[-1, 1]` exactly, and every factorial the loops compute fits the
checked `i128` range, so the computation is exact and overflow-free.
(Above this interval the truncated sum can overshoot — see the
counterexample; below it the `i128` factorial can overflow.) -/
theorem C8_amended (q tol R S : ℚ) (b b2 : Bool)
    (htolLo : 14 / 10 ^ 11 ≤ tol) (htolHi : tol ≤ 4 / 10 ^ 7) :
    (sine (F64.finite q) tol = some (F64.finite R, b) → -1 ≤ R ∧ R ≤ 1) ∧
    (cosine (F64.finite q) tol = some (F64.finite S, b2) → -1 ≤ S ∧ S ≤ 1) ∧
    (∀ n, sineSteps q tol = some n → ∀ s, s < n →
      factorialChecked (2 * s + 1) = some (((factorial (2 * s + 1) : ℕ) : ℤ))) ∧
    (∀ n, cosineSteps q tol = some n → ∀ s, s < n →
      factorialChecked (2 * s + 0) = some (((factorial (2 * s + 0) : ℕ) : ℤ))) := by
  have htol0 : 0 < tol := lt_of_lt_of_le (by norm_num) htolLo
  refine ⟨?_, ?_, ?_, ?_⟩
  · intro h
    exact abs_le.mp (template_abs_le_one q tol 1 (by norm_num) htol0 htolHi R b h)
  · intro h
    exact abs_le.mp (template_abs_le_one q tol 0 (by norm_num) htol0 htolHi S b2 h)
  · intro n hn s hs
    obtain ⟨v, rez, hv, hl⟩ := sineSteps_inv q tol n hn
    have h17 := steps_le_safe q tol 1 (by norm_num) htolLo v rez n hv hl
    exact factorialChecked_args_safe s 1 (by norm_num) (by omega)
  · intro n hn s hs
    obtain ⟨v, rez, hv, hl⟩ := cosineSteps_inv q tol n hn
    have h17 := steps_le_safe q tol 0 (by norm_num) htolLo v rez n hv hl
    exact factorialChecked_args_safe s 0 (by norm_num) (by omega)

/-- C8 (witness): `sine(1/2, 1e-7) = 0.479426` lies in `[-1, 1]`. -/
theorem C8_amended_witness :
    (-1 : ℚ) ≤ 239713 / 500000 ∧ (239713 : ℚ) / 500000 ≤ 1 :=
  (C8_amended (1 / 2) (1 / 10 ^ 7) (239713 / 500000) 0 false false
    (by norm_num) (by norm_num)).1 (by decide)

/-- C9 (counterexample): a 5-decimal display flip across one period: at
`x = -45000007e-13` (radians) with `k = 2` and tolerance `1e-10`, `sine x`
displays `-0.00001` while `sine (x + 2π·2)` displays `0.00000`, because
the range reduction maps the two inputs to values that differ by exactly
one (floating-point) period and the results straddle a rounding boundary. -/
theorem C9_counterexample :
    disp5 (sine (F64.finite (-45000007 / 10 ^ 13)) (1 / 10 ^ 10)) =
      some (-1 / 100000) ∧
    disp5 (sine (F64.finite (-45000007 / 10 ^ 13 + PERIOD * 2)) (1 / 10 ^ 10)) =
      some 0 ∧
    ((-1 : ℚ) / 100000) ≠ 0 :=
  ⟨by decide, by decide, by norm_num⟩

/-- C9 (amended): shifting the angle by whole periods never changes the
result at all — exactly, not merely at 5 decimals — as long as the shift
does not cross zero: `sine (x + 2πk) = sine x` for `x ≥ 0` and
`sine (x - 2πk) = sine x` for `x ≤ 0`.  (The counterexample shows the
unrestricted claim fails at rounding boundaries.) -/
theorem C9_amended (x tol : ℚ) (k : ℕ) :
    (0 ≤ x → sine (F64.finite (x + PERIOD * k)) tol = sine (F64.finite x) tol) ∧
    (x ≤ 0 → sine (F64.finite (x - PERIOD * k)) tol = sine (F64.finite x) tol) := by
  constructor
  · intro hx
    exact template_congr_reduce _ _ tol 1 (reduceAngle_add_periods x k hx)
  · intro hx
    exact template_congr_reduce _ _ tol 1 (reduceAngle_sub_periods x k hx)

/-- C9 (witness): `sine(1 + 2π, 1/2) = sine(1, 1/2)`. -/
theorem C9_amended_witness :
    sine (F64.finite (1 + PERIOD * 1)) (1 / 2) = sine (F64.finite 1) (1 / 2) :=
  (C9_amended 1 (1 / 2) 1).1 (by norm_num)

end Claims
